import Mathlib

/-!
Verification of the kinetic-analysis core (data_processor, kinetic_models,
and the driving logic of app.main) against its specification.

The embedding below translates the relevant source functions:
numeric cells become rationals, pandas NaN becomes a missing value,
floating point arithmetic is idealized as exact arithmetic over the
rationals (for the scanning and parsing code) and over the reals (for the
model fits, which involve exp and log).  The scipy curve_fit call is
modelled by the closed-form least-squares solution, which the fitted
models, being linear in their single parameter, admit.
-/

namespace Kenan

/-- A raw table cell as the preprocessing code sees it: a numeric value,
a missing value (pandas NaN), or a text value given by its characters. -/
inductive Cell where
  | num : ℚ → Cell
  | nan : Cell
  | str : List Char → Cell
deriving DecidableEq

/-- One raw input row with the four columns used by the pipeline
(time, concentration, reference concentration, ratio). -/
structure PreRow where
  t : Cell
  A : Cell
  A0 : Cell
  ratio : Cell
deriving DecidableEq

/-- One cleaned output row of preprocess_data. -/
structure Row where
  t : ℚ
  A : ℚ
  A0 : ℚ
  ratio : ℚ
deriving DecidableEq

/-- Strip leading and trailing whitespace, as the str.strip call does. -/
def stripWs (cs : List Char) : List Char :=
  ((cs.dropWhile Char.isWhitespace).reverse.dropWhile Char.isWhitespace).reverse

/-- Normalize the exponent marker: float literals accept both e and E. -/
def replaceEe (cs : List Char) : List Char :=
  cs.map fun c => if c = 'E' then 'e' else c

/-- str.replace of every comma by a dot, character by character. -/
def replaceCommaDot (cs : List Char) : List Char :=
  cs.map fun c => if c = ',' then '.' else c

/-- Split an optional leading sign off a numeric literal; the Bool is true
for a negative sign. -/
def splitSign (cs : List Char) : Bool × List Char :=
  match cs with
  | [] => (false, [])
  | c :: rest => if c = '-' then (true, rest) else if c = '+' then (false, rest) else (false, cs)

/-- Digit characters to the natural number they denote. -/
def digitsToNat (cs : List Char) : ℕ :=
  cs.foldl (fun n c => 10 * n + (c.toNat - 48)) 0

/-- Unsigned mantissa of a float literal: an integer part and an optional
fractional part around at most one dot, with at least one digit overall. -/
def parseMantissaAbs (cs : List Char) : Option ℚ :=
  let ip := cs.takeWhile Char.isDigit
  let rest := cs.dropWhile Char.isDigit
  if rest.isEmpty then
    if ip.isEmpty then none else some ((digitsToNat ip : ℚ))
  else if rest.head? = some '.' ∧ rest.tail.all Char.isDigit ∧ ¬(ip.isEmpty ∧ rest.tail.isEmpty) then
    some ((digitsToNat ip : ℚ) + (digitsToNat rest.tail : ℚ) / 10 ^ rest.tail.length)
  else none

/-- Mantissa with an optional sign. -/
def parseSignedMantissa (cs : List Char) : Option ℚ :=
  let p := splitSign cs
  (parseMantissaAbs p.2).map fun q => if p.1 then -q else q

/-- Exponent part of a float literal: an optional sign and digits only. -/
def parseSignedExp (cs : List Char) : Option ℤ :=
  let p := splitSign cs
  if p.2.isEmpty then none
  else if p.2.all Char.isDigit then
    some (if p.1 then -(digitsToNat p.2 : ℤ) else (digitsToNat p.2 : ℤ))
  else none

/-- The float-literal parser modelling the Python float constructor on
finite numeric literals: whitespace stripped, optional sign, digits with
at most one dot, optional e or E exponent. -/
def pyFloatChars (cs0 : List Char) : Option ℚ :=
  let cs := replaceEe (stripWs cs0)
  let m := cs.takeWhile (· != 'e')
  let r := cs.dropWhile (· != 'e')
  if r.isEmpty then parseSignedMantissa m
  else
    match parseSignedMantissa m, parseSignedExp r.tail with
    | some mv, some ev => some (mv * (10 : ℚ) ^ ev)
    | _, _ => none

/-- pd.to_numeric with errors coerce on one cell: numbers pass through,
NaN stays missing, text is parsed as a standard numeric literal
(commas are not accepted). -/
def to_numeric : Cell → Option ℚ
  | Cell.num q => some q
  | Cell.nan => none
  | Cell.str s => pyFloatChars s

/-- convert_european_decimal from data_processor: missing stays missing,
numbers pass through, text is stripped, every comma is replaced by a dot,
and the result is parsed as a float literal. -/
def convert_european_decimal : Cell → Option ℚ
  | Cell.num q => some q
  | Cell.nan => none
  | Cell.str s => pyFloatChars (replaceCommaDot (stripWs s))

/-- The per-cell fallback chain of preprocess_data: the strict parse first,
then the European-decimal conversion applied to the original cell. -/
def parseCell (c : Cell) : Option ℚ :=
  match to_numeric c with
  | some q => some q
  | none => convert_european_decimal c

/-- Pandas float division of two parsed columns; a missing operand gives
missing, and division by zero is treated as missing (such rows are dropped
by the later filters in either reading). -/
def divOptQ : Option ℚ → Option ℚ → Option ℚ
  | some a, some b => if b = 0 then none else some (a / b)
  | _, _ => none

/-- Row-wise numeric conversion of preprocess_data: parse the three
required columns through the fallback chain, obtain the ratio from its
column when present (recomputing it as A / A0 when still missing) or
compute it as A / A0 when the column is absent, then drop the row if any
essential value is missing (the dropna call). -/
def rowParse (hasRatio : Bool) (r : PreRow) : Option Row :=
  let tq := parseCell r.t
  let aq := parseCell r.A
  let a0q := parseCell r.A0
  let rq :=
    if hasRatio then
      match parseCell r.ratio with
      | some q => some q
      | none => divOptQ aq a0q
    else divOptQ aq a0q
  match tq, aq, a0q, rq with
  | some tv, some av, some a0v, some rv => some ⟨tv, av, a0v, rv⟩
  | _, _, _, _ => none

/-- preprocess_data from data_processor on a table whose ratio column may
be absent: numeric conversion with the fallback chain and dropna, then the
three positivity filters (ratio, then A, then A0), in source order. -/
def preprocess_data (hasRatio : Bool) (rows : List PreRow) : List Row :=
  (((rows.filterMap (rowParse hasRatio)).filter
      fun r => decide (0 < r.ratio)).filter
      fun r => decide (0 < r.A)).filter
      fun r => decide (0 < r.A0)

/-- The loop of find_stable_points from kinetic_models.  The fuel argument
counts the remaining candidate indices, i is the next candidate, acc holds
the accepted indices newest first (so acc.headI is the last accepted
index), init is the reference slope once set, prev the previous slope. -/
def find_stable_points_aux (y t : ℕ → ℚ) (th : ℚ) :
    ℕ → ℕ → List ℕ → Option ℚ → ℚ → List ℕ
  | 0, _, acc, _, _ => acc.reverse
  | fuel + 1, i, acc, init, prev =>
    let last := acc.headI
    let dy := y i - y last
    let dt := t i - t last
    if dt = 0 then find_stable_points_aux y t th fuel (i + 1) acc init prev
    else
      let slope := dy / dt
      match init with
      | none => find_stable_points_aux y t th fuel (i + 1) (i :: acc) (some slope) slope
      | some s0 =>
        if s0 ≠ 0 then
          if |slope / s0| < th ∨ slope * prev < 0 then acc.reverse
          else find_stable_points_aux y t th fuel (i + 1) (i :: acc) init slope
        else
          if th < |slope| then acc.reverse
          else find_stable_points_aux y t th fuel (i + 1) (i :: acc) init slope

/-- find_stable_points from kinetic_models: scan candidates 1, 2, ... with
index 0 always accepted, measuring each slope against the last accepted
point, and stopping at the first terminating condition. -/
def find_stable_points (y t : List ℚ) (threshold : ℚ) : List ℕ :=
  find_stable_points_aux (fun i => y.getD i 0) (fun i => t.getD i 0) threshold
    (y.length - 1) 1 [0] none 0

/-- The shape asserted by the spec for the selector output: a contiguous
index run 0, 1, ..., m-1 with m at least 1. -/
def contiguousFromZero (l : List ℕ) : Prop :=
  ∃ m, 1 ≤ m ∧ l = List.range m

/-- The model-fitting block of app.main: both fits run inside one guarded
block (a single try with a single generic handler), so the block stops at
the first raised error and reports only that error. -/
def run_model_fits {α β : Type} (pfo : Except String α) (pso : Except String β) :
    Except String (α × β) :=
  match pfo with
  | Except.error e => Except.error e
  | Except.ok a =>
    match pso with
    | Except.error e => Except.error e
    | Except.ok b => Except.ok (a, b)

/-- An uploaded table as app.main sees it: which named columns are present,
and the raw rows. -/
structure UploadTable where
  hasT : Bool
  hasA : Bool
  hasA0 : Bool
  hasRatio : Bool
  rows : List PreRow
deriving DecidableEq

/-- The required columns reported missing by validate_data_structure. -/
def requiredMissing (tbl : UploadTable) : List String :=
  (if tbl.hasT then [] else ["т, мин"]) ++
  (if tbl.hasA then [] else ["А"]) ++
  (if tbl.hasA0 then [] else ["А0"])

/-- validate_data_structure from data_processor: an empty table and any
missing required column (time, concentration, reference concentration)
are rejected; the ratio column is optional. -/
def validate_data_structure (tbl : UploadTable) : Bool × String :=
  if tbl.rows.isEmpty then (false, "Файл пуст")
  else if requiredMissing tbl ≠ [] then
    (false, "Отсутствуют обязательные столбцы: " ++
      String.intercalate ", " (requiredMissing tbl))
  else (true, "")

/-- First valid concentration of the auto-fill branch of app.main:
the column is coerced with pd.to_numeric and the first positive parsed
value is taken. -/
def firstValidA (rows : List PreRow) : Option ℚ :=
  (rows.filterMap fun r => to_numeric r.A).find? fun a => decide (0 < a)

/-- Setting the reference-concentration column to a constant value, as the
auto-fill branch of app.main does. -/
def setA0 (tbl : UploadTable) (a : ℚ) : UploadTable :=
  { tbl with hasA0 := true, rows := tbl.rows.map fun r => { r with A0 := Cell.num a } }

/-- Cell-level division used when app.main creates the ratio column. -/
def divCell : Cell → Cell → Cell
  | Cell.num a, Cell.num b => if b = 0 then Cell.nan else Cell.num (a / b)
  | _, _ => Cell.nan

/-- The ratio auto-fill of app.main: when the ratio column is absent and
both concentration columns are present, add it as their quotient. -/
def fillRatioIfMissing (tbl : UploadTable) : UploadTable :=
  if !tbl.hasRatio && tbl.hasA && tbl.hasA0 then
    { tbl with hasRatio := true, rows := tbl.rows.map fun r => { r with ratio := divCell r.A r.A0 } }
  else tbl

/-- The file-upload preparation sequence of app.main, in source order:
validate_data_structure first (returning its error message on failure),
then the reference-concentration auto-fill branch, then the ratio
auto-fill. -/
def upload_flow (tbl : UploadTable) : Except String UploadTable :=
  let v := validate_data_structure tbl
  if v.1 then
    if tbl.hasA0 then Except.ok (fillRatioIfMissing tbl)
    else if tbl.hasA && !tbl.rows.isEmpty then
      match firstValidA tbl.rows with
      | some a => Except.ok (fillRatioIfMissing (setA0 tbl a))
      | none => Except.error "Не удалось определить А0: нет действительных значений в столбце А"
    else Except.error "Не удалось определить А0: столбец А отсутствует или файл пуст"
  else Except.error v.2

/-- Input rows for which preprocessing keeps two rows with equal,
non-positive times. -/
def c2rows : List PreRow :=
  [⟨Cell.num 0, Cell.num 1, Cell.num 1, Cell.num 1⟩,
   ⟨Cell.num 0, Cell.num 1, Cell.num 1, Cell.num 1⟩]

/-- A well-formed one-row table that keeps one row after preprocessing. -/
def c2goodRows : List PreRow := [⟨Cell.num 1, Cell.num 2, Cell.num 4, Cell.num 1⟩]

/-- A one-row table whose time cell is the text 1,234 with a single comma
and whose other cells are plain positive numbers. -/
def c10row : PreRow :=
  ⟨Cell.str ['1', ',', '2', '3', '4'], Cell.num 1, Cell.num 1, Cell.num 1⟩

/-- An uploaded table with time and concentration columns but no
reference-concentration column; its concentration value is positive. -/
def c4table : UploadTable :=
  ⟨true, true, false, false, [⟨Cell.num 0, Cell.num 5, Cell.nan, Cell.nan⟩]⟩

noncomputable section

/-- Sum of pairwise products of two equal-length columns. -/
def dotR (a b : List ℝ) : ℝ := (List.zipWith (· * ·) a b).sum

/-- The slope returned by the curve_fit call of fit_pfo_model.  The fitted
model -k*t is linear in its single parameter k, so the solver converges to
the closed-form least-squares solution, embedded here directly. -/
def pfo_k (t y : List ℝ) : ℝ := -(dotR t y) / dotR t t

/-- The PFO_pred_ln column: pfo_model evaluated at the fitted constant. -/
def pfo_pred_ln (t : List ℝ) (k : ℝ) : List ℝ := t.map fun x => -k * x

/-- The PFO_pred column: the exponential of the predicted log-ratio. -/
def pfo_pred (t : List ℝ) (k : ℝ) : List ℝ := (pfo_pred_ln t k).map Real.exp

/-- sklearn mean_absolute_percentage_error: the mean of the absolute
relative errors (the floating-point epsilon guard of the library is
immaterial over the reals for nonzero observations). -/
def sklearn_mape (obs pred : List ℝ) : ℝ :=
  ((List.zipWith (fun o p => |o - p| / |o|) obs pred).sum) / obs.length

/-- sklearn r2_score: one minus the ratio of residual to total sum of
squares about the observed mean. -/
def sklearn_r2 (obs pred : List ℝ) : ℝ :=
  1 - ((List.zipWith (fun o p => (o - p) ^ 2) obs pred).sum) /
      ((obs.map fun o => (o - obs.sum / obs.length) ^ 2).sum)

/-- fit_pfo_model from kinetic_models, over the three columns it reads:
time, log-ratio (the fitting variable), and ratio (the metric variable).
Returns the rate constant, the prediction column, MAPE in percent, and
R squared. -/
def fit_pfo_model (t lnr ratio : List ℝ) : ℝ × List ℝ × ℝ × ℝ :=
  let k1 := pfo_k t lnr
  let preds := pfo_pred t k1
  (k1, preds, sklearn_mape ratio preds * 100, sklearn_r2 ratio preds)

/-- The slope returned by the curve_fit call of fit_pso_model with the
intercept fixed at the reciprocal of the local reference concentration;
again the closed-form least-squares solution of the linear model. -/
def pso_k (t y : List ℝ) (A0 : ℝ) : ℝ :=
  (List.zipWith (fun ti yi => ti * (yi - 1 / A0)) t y).sum / dotR t t

/-- The PSO_pred_inv column: pso_model evaluated at the fitted constant. -/
def pso_pred_inv (t : List ℝ) (k A0 : ℝ) : List ℝ := t.map fun x => 1 / A0 + k * x

/-- The PSO_pred column: reciprocal of the predicted inverse concentration. -/
def pso_pred (t : List ℝ) (k A0 : ℝ) : List ℝ := (pso_pred_inv t k A0).map fun v => 1 / v

/-- fit_pso_model from kinetic_models, over the three columns it reads:
time, inverse concentration (the fitting variable), and concentration (the
metric variable); the local reference is the first concentration of the
selected region. -/
def fit_pso_model (t invA A : List ℝ) : ℝ × List ℝ × ℝ × ℝ :=
  let A0 := A.headI
  let k2 := pso_k t invA A0
  let preds := pso_pred t k2 A0
  (k2, preds, sklearn_mape A preds * 100, sklearn_r2 A preds)

/-- Modelled from the spec: MAPE as the mean of absolute observed-minus-
predicted over absolute observed, times one hundred, over the fitted
points. -/
def specMAPE (obs pred : List ℝ) : ℝ :=
  ((List.zipWith (fun o p => |o - p| / |o| * 100) obs pred).sum) / obs.length

/-- Modelled from the spec: R squared as one minus the ratio of the
residual sum of squares to the total sum of squares of the observations. -/
def specR2 (obs pred : List ℝ) : ℝ :=
  1 - ((List.zipWith (fun o p => (o - p) ^ 2) obs pred).sum) /
      ((obs.map fun o => (o - obs.sum / obs.length) ^ 2).sum)

/-- Squared-error objective that the PFO curve_fit call minimizes. -/
def ssePFO (t y : List ℝ) (k : ℝ) : ℝ :=
  (List.zipWith (fun ti yi => (yi - (-k * ti)) ^ 2) t y).sum

/-- Squared-error objective of a fixed-intercept linear model, as the PSO
curve_fit call minimizes with the intercept at the reciprocal reference. -/
def sseLin (t y : List ℝ) (c k : ℝ) : ℝ :=
  (List.zipWith (fun ti yi => (yi - (c + k * ti)) ^ 2) t y).sum

/-- Closed-form least-squares slope of the fixed-intercept linear model. -/
def lsq_k (t y : List ℝ) (c : ℝ) : ℝ :=
  (List.zipWith (fun ti yi => ti * (yi - c)) t y).sum / dotR t t

/-- Times of the noiseless first-order scenario. -/
def c9t : List ℝ := [0, 2, 5, 10]

/-- Ratios of the noiseless first-order scenario with rate 0.05. -/
def c9ratio : List ℝ := c9t.map fun x => Real.exp (-(1 / 20) * x)

/-- Log-ratio column the pipeline derives for the scenario. -/
def c9ln : List ℝ := c9ratio.map Real.log

/-- The scenario times over the rationals, for the selector scan. -/
def c9tQ : List ℚ := [0, 2, 5, 10]

/-- The scenario log-ratios over the rationals: the exact values of the
derived log-ratio column. -/
def c9yQ : List ℚ := [0, -1 / 10, -1 / 4, -1 / 2]

end

theorem fsp_aux_shape (y t : ℕ → ℚ) (th : ℚ) :
    ∀ (fuel i : ℕ) (acc : List ℕ) (init : Option ℚ) (prev : ℚ),
      acc ≠ [] → (∀ x ∈ acc, x < i) → List.Chain' (· > ·) acc →
      ∃ acc2 : List ℕ,
        find_stable_points_aux y t th fuel i acc init prev = acc2.reverse ∧
        acc2 ≠ [] ∧ List.Chain' (· > ·) acc2 ∧ acc2.getLast? = acc.getLast? := by
  intro fuel
  induction fuel with
  | zero =>
    intro i acc init prev h1 h2 h3
    exact ⟨acc, rfl, h1, h3, rfl⟩
  | succ n ih =>
    intro i acc init prev h1 h2 h3
    have hmem : ∀ x ∈ acc, x < i + 1 := fun x hx => Nat.lt_succ_of_lt (h2 x hx)
    have hconsne : (i :: acc) ≠ [] := List.cons_ne_nil i acc
    have hconsmem : ∀ x ∈ i :: acc, x < i + 1 := by
      intro x hx
      rcases List.mem_cons.mp hx with h | h
      · omega
      · exact Nat.lt_succ_of_lt (h2 x h)
    have hconschain : List.Chain' (· > ·) (i :: acc) := by
      cases acc with
      | nil => exact absurd rfl h1
      | cons a as => exact List.chain'_cons.mpr ⟨h2 a (List.mem_cons_self a as), h3⟩
    have hconslast : (i :: acc).getLast? = acc.getLast? := by
      cases acc with
      | nil => exact absurd rfl h1
      | cons a as => exact List.getLast?_cons_cons
    rw [find_stable_points_aux]
    dsimp only
    by_cases hdt : t i - t acc.headI = 0
    · rw [if_pos hdt]
      exact ih (i + 1) acc init prev h1 hmem h3
    · rw [if_neg hdt]
      cases init with
      | none =>
        dsimp only
        obtain ⟨acc2, he, hn, hc, hl⟩ :=
          ih (i + 1) (i :: acc) (some ((y i - y acc.headI) / (t i - t acc.headI)))
            ((y i - y acc.headI) / (t i - t acc.headI)) hconsne hconsmem hconschain
        exact ⟨acc2, he, hn, hc, hl.trans hconslast⟩
      | some s0 =>
        dsimp only
        by_cases hs0 : s0 ≠ 0
        · rw [if_pos hs0]
          by_cases hbrk :
              |(y i - y acc.headI) / (t i - t acc.headI) / s0| < th ∨
                (y i - y acc.headI) / (t i - t acc.headI) * prev < 0
          · rw [if_pos hbrk]
            exact ⟨acc, rfl, h1, h3, rfl⟩
          · rw [if_neg hbrk]
            obtain ⟨acc2, he, hn, hc, hl⟩ :=
              ih (i + 1) (i :: acc) (some s0)
                ((y i - y acc.headI) / (t i - t acc.headI)) hconsne hconsmem hconschain
            exact ⟨acc2, he, hn, hc, hl.trans hconslast⟩
        · rw [if_neg hs0]
          by_cases hbrk : th < |(y i - y acc.headI) / (t i - t acc.headI)|
          · rw [if_pos hbrk]
            exact ⟨acc, rfl, h1, h3, rfl⟩
          · rw [if_neg hbrk]
            obtain ⟨acc2, he, hn, hc, hl⟩ :=
              ih (i + 1) (i :: acc) (some s0)
                ((y i - y acc.headI) / (t i - t acc.headI)) hconsne hconsmem hconschain
            exact ⟨acc2, he, hn, hc, hl.trans hconslast⟩

/-- Claim C8: for every pair of equal-length input series with at least one
point and every threshold, the scan always returns, without raising, a
non-empty strictly increasing index list whose first element is 0, and a
one-point series yields exactly the index list with the single index 0. -/
theorem C8_selector_total (y t : List ℚ) (th : ℚ)
    (hlen : t.length = y.length) (hn : 1 ≤ y.length) :
    find_stable_points y t th ≠ [] ∧
    (find_stable_points y t th).head? = some 0 ∧
    List.Chain' (· < ·) (find_stable_points y t th) ∧
    (y.length = 1 → find_stable_points y t th = [0]) := by
  obtain ⟨acc2, he, hn2, hc2, hl2⟩ :=
    fsp_aux_shape (fun i => y.getD i 0) (fun i => t.getD i 0) th
      (y.length - 1) 1 [0] none 0 (by simp) (by simp) (by simp)
  rw [find_stable_points, he]
  refine ⟨by simp [hn2], ?_, ?_, ?_⟩
  · rw [List.head?_reverse, hl2]
    rfl
  · exact List.chain'_reverse.mpr hc2
  · intro h1
    rw [← he]
    rw [show y.length - 1 = 0 by omega]
    rfl

/-- Witness for C8 at a concrete one-point series. -/
theorem C8_selector_total_witness : find_stable_points [5] [3] (1 / 10) = [0] :=
  (C8_selector_total [5] [3] (1 / 10) rfl (by norm_num)).2.2.2 rfl



theorem range_reverse_cons (i : ℕ) : (List.range (i + 1)).reverse = i :: (List.range i).reverse := by
  rw [List.range_succ, List.reverse_append]
  rfl

theorem range_reverse_headI (i : ℕ) (h : 1 ≤ i) : ((List.range i).reverse).headI = i - 1 := by
  obtain ⟨j, rfl⟩ : ∃ j, i = j + 1 := ⟨i - 1, by omega⟩
  rw [range_reverse_cons]
  rfl

theorem fsp_dup_eval (y0 y1 y2 th : ℚ) :
    find_stable_points [y0, y1, y2] [0, 0, 5] th = [0, 2] := by
  show find_stable_points_aux _ _ _ 2 1 [0] none 0 = [0, 2]
  rw [find_stable_points_aux]
  dsimp only
  norm_num [List.getD]
  rw [find_stable_points_aux]
  dsimp only
  norm_num [List.getD]
  rw [find_stable_points_aux]
  rfl

/-- Claim C1 counterexample: with a duplicated leading timestamp the scan
skips index 1 but accepts index 2, so the returned list [0, 2] is not a
contiguous index run 0, ..., m-1 for any m. -/
theorem C1_not_contiguous :
    ¬ contiguousFromZero (find_stable_points [0, 1, 2] [0, 0, 5] (1 / 10)) := by
  rw [fsp_dup_eval]
  rintro ⟨m, hm, he⟩
  have hl := congrArg List.length he
  simp only [List.length_range] at hl
  subst hl
  simp [List.range_succ] at he

theorem fsp_aux_range (y t : ℕ → ℚ) (th : ℚ) (n : ℕ)
    (hmono : ∀ j i : ℕ, j < i → i < n → t j < t i) :
    ∀ (fuel i : ℕ) (init : Option ℚ) (prev : ℚ), 1 ≤ i → i + fuel = n →
      ∃ m : ℕ, 1 ≤ m ∧ m ≤ n ∧
        find_stable_points_aux y t th fuel i ((List.range i).reverse) init prev = List.range m := by
  intro fuel
  induction fuel with
  | zero =>
    intro i init prev h1 h2
    refine ⟨i, h1, by omega, ?_⟩
    rw [find_stable_points_aux, List.reverse_reverse]
  | succ k ih =>
    intro i init prev h1 h2
    have hin : i < n := by omega
    have hlt : t (i - 1) < t i := hmono (i - 1) i (by omega) hin
    have hdt : t i - t ((List.range i).reverse).headI ≠ 0 := by
      rw [range_reverse_headI i h1]
      exact sub_ne_zero.mpr (ne_of_gt hlt)
    rw [find_stable_points_aux]
    dsimp only
    rw [if_neg hdt]
    cases init with
    | none =>
      dsimp only
      obtain ⟨m, hm1, hm2, he⟩ := ih (i + 1) _ _ (by omega) (by omega)
      rw [range_reverse_cons] at he
      exact ⟨m, hm1, hm2, he⟩
    | some s0 =>
      dsimp only
      by_cases hs0 : s0 ≠ 0
      · rw [if_pos hs0]
        by_cases hbrk :
            |(y i - y ((List.range i).reverse).headI) /
                (t i - t ((List.range i).reverse).headI) / s0| < th ∨
              (y i - y ((List.range i).reverse).headI) /
                (t i - t ((List.range i).reverse).headI) * prev < 0
        · rw [if_pos hbrk, List.reverse_reverse]
          exact ⟨i, h1, by omega, rfl⟩
        · rw [if_neg hbrk]
          obtain ⟨m, hm1, hm2, he⟩ := ih (i + 1) _ _ (by omega) (by omega)
          rw [range_reverse_cons] at he
          exact ⟨m, hm1, hm2, he⟩
      · rw [if_neg hs0]
        by_cases hbrk : th < |(y i - y ((List.range i).reverse).headI) /
            (t i - t ((List.range i).reverse).headI)|
        · rw [if_pos hbrk, List.reverse_reverse]
          exact ⟨i, h1, by omega, rfl⟩
        · rw [if_neg hbrk]
          obtain ⟨m, hm1, hm2, he⟩ := ih (i + 1) _ _ (by omega) (by omega)
          rw [range_reverse_cons] at he
          exact ⟨m, hm1, hm2, he⟩

/-- Claim C1 amended: when the time series is strictly increasing (the
documented post-preprocessing invariant), every candidate step either
accepts the next index or stops the scan for good, so the result is
exactly the contiguous index run 0, ..., m-1 for some m between 1 and n. -/
theorem C1_contiguous_of_strict_mono (y t : List ℚ) (th : ℚ)
    (hlen : t.length = y.length) (hn : 1 ≤ y.length)
    (hmono : List.Chain' (· < ·) t) :
    ∃ m : ℕ, 1 ≤ m ∧ m ≤ y.length ∧ find_stable_points y t th = List.range m := by
  have hp : List.Pairwise (· < ·) t := List.chain'_iff_pairwise.mp hmono
  have hm : ∀ j i : ℕ, j < i → i < y.length → (t.getD j 0) < (t.getD i 0) := by
    intro j i hji hi
    have hit : i < t.length := by omega
    have hjt : j < t.length := by omega
    rw [List.getD_eq_getElem t 0 hit, List.getD_eq_getElem t 0 hjt]
    exact List.pairwise_iff_get.mp hp ⟨j, hjt⟩ ⟨i, hit⟩ hji
  obtain ⟨m, h1, h2, he⟩ :=
    fsp_aux_range (fun i => y.getD i 0) (fun i => t.getD i 0) th y.length hm
      (y.length - 1) 1 none 0 le_rfl (by omega)
  refine ⟨m, h1, h2, ?_⟩
  rw [find_stable_points]
  have h01 : ([0] : List ℕ) = (List.range 1).reverse := rfl
  rw [h01]
  exact he

theorem fsp_aux_affine (y t : ℕ → ℚ) (th s : ℚ) (n : ℕ)
    (hth0 : 0 < th) (hth1 : th ≤ 1)
    (hmono : ∀ j i : ℕ, j < i → i < n → t j < t i)
    (haff : ∀ j i : ℕ, j < i → i < n → y i - y j = s * (t i - t j)) :
    ∀ (fuel i : ℕ) (init : Option ℚ) (prev : ℚ), 1 ≤ i → i + fuel = n →
      (init = none ∧ i = 1 ∨ init = some s ∧ prev = s) →
      find_stable_points_aux y t th fuel i ((List.range i).reverse) init prev = List.range n := by
  intro fuel
  induction fuel with
  | zero =>
    intro i init prev h1 h2 _h3
    have hieq : i = n := by omega
    subst hieq
    rw [find_stable_points_aux, List.reverse_reverse]
  | succ k ih =>
    intro i init prev h1 h2 h3
    have hin : i < n := by omega
    have hlt : t (i - 1) < t i := hmono (i - 1) i (by omega) hin
    have hhead : ((List.range i).reverse).headI = i - 1 := range_reverse_headI i h1
    have hdt : t i - t ((List.range i).reverse).headI ≠ 0 := by
      rw [hhead]
      exact sub_ne_zero.mpr (ne_of_gt hlt)
    have hslope : (y i - y ((List.range i).reverse).headI) /
        (t i - t ((List.range i).reverse).headI) = s := by
      rw [hhead, haff (i - 1) i (by omega) hin]
      rw [mul_div_assoc, div_self (by rw [hhead] at hdt; exact hdt), mul_one]
    rw [find_stable_points_aux]
    dsimp only
    rw [if_neg hdt]
    rcases h3 with ⟨hinit, _hi⟩ | ⟨hinit, hprev⟩
    · subst hinit
      dsimp only
      rw [hslope]
      have hrec := ih (i + 1) (some s) s (by omega) (by omega) (Or.inr ⟨rfl, rfl⟩)
      rw [range_reverse_cons] at hrec
      exact hrec
    · subst hinit
      dsimp only
      rw [hslope, hprev]
      by_cases hs : s ≠ 0
      · rw [if_pos hs]
        have hc1 : ¬(|s / s| < th) := by
          rw [div_self hs, abs_one]
          exact not_lt.mpr hth1
        have hc2 : ¬(s * s < 0) := not_lt.mpr (mul_self_nonneg s)
        rw [if_neg (not_or.mpr ⟨hc1, hc2⟩)]
        have hrec := ih (i + 1) (some s) s (by omega) (by omega) (Or.inr ⟨rfl, rfl⟩)
        rw [range_reverse_cons] at hrec
        exact hrec
      · rw [if_neg hs]
        push_neg at hs
        subst hs
        rw [abs_zero, if_neg (not_lt.mpr (le_of_lt hth0))]
        have hrec := ih (i + 1) (some 0) 0 (by omega) (by omega) (Or.inr ⟨rfl, rfl⟩)
        rw [range_reverse_cons] at hrec
        exact hrec

theorem fsp_affine_all (y t : List ℚ) (th s : ℚ)
    (hlen : t.length = y.length) (hn : 1 ≤ y.length)
    (hth0 : 0 < th) (hth1 : th ≤ 1)
    (hmono : List.Chain' (· < ·) t)
    (haff : ∀ i : ℕ, i < y.length →
      y.getD i 0 = y.getD 0 0 + s * (t.getD i 0 - t.getD 0 0)) :
    find_stable_points y t th = List.range y.length := by
  have hp : List.Pairwise (· < ·) t := List.chain'_iff_pairwise.mp hmono
  have hm : ∀ j i : ℕ, j < i → i < y.length → (t.getD j 0) < (t.getD i 0) := by
    intro j i hji hi
    have hit : i < t.length := by omega
    have hjt : j < t.length := by omega
    rw [List.getD_eq_getElem t 0 hit, List.getD_eq_getElem t 0 hjt]
    exact List.pairwise_iff_get.mp hp ⟨j, hjt⟩ ⟨i, hit⟩ hji
  have ha : ∀ j i : ℕ, j < i → i < y.length →
      (y.getD i 0) - (y.getD j 0) = s * ((t.getD i 0) - (t.getD j 0)) := by
    intro j i hji hi
    rw [haff i hi, haff j (by omega)]
    ring
  have hres := fsp_aux_affine (fun i => y.getD i 0) (fun i => t.getD i 0) th s
    y.length hth0 hth1 hm ha (y.length - 1) 1 none 0 le_rfl (by omega)
    (Or.inl ⟨rfl, rfl⟩)
  rw [find_stable_points]
  have h01 : ([0] : List ℕ) = (List.range 1).reverse := rfl
  rw [h01]
  exact hres

/-- Witness for the amended C1 at a concrete two-point series. -/
theorem C1_contiguous_of_strict_mono_witness :
    ∃ m : ℕ, 1 ≤ m ∧ m ≤ ([0, 1] : List ℚ).length ∧
      find_stable_points [0, 1] [0, 1] (1 / 10) = List.range m :=
  C1_contiguous_of_strict_mono [0, 1] [0, 1] (1 / 10) rfl (by norm_num)
    (by norm_num [List.chain'_cons])

/-- Claim C7: a candidate whose time delta to the last accepted index is
zero is skipped entirely, neither accepted nor terminating the scan, and
causes no failure; in particular for times 0, 0, 5 the scan returns the
list [0, 2] for every dependent series and threshold. -/
theorem C7_duplicate_timestamp_skipped :
    (∀ y0 y1 y2 th : ℚ, find_stable_points [y0, y1, y2] [0, 0, 5] th = [0, 2]) ∧
    (∀ (y t : ℕ → ℚ) (th : ℚ) (fuel i : ℕ) (acc : List ℕ) (init : Option ℚ) (prev : ℚ),
      t i = t acc.headI →
      find_stable_points_aux y t th (fuel + 1) i acc init prev =
        find_stable_points_aux y t th fuel (i + 1) acc init prev) := by
  constructor
  · exact fsp_dup_eval
  · intro y t th fuel i acc init prev h
    rw [find_stable_points_aux]
    dsimp only
    rw [if_pos (sub_eq_zero.mpr h)]

/-- Witness for C7 at concrete inputs, discharging the zero-delta
hypothesis of the skip property. -/
theorem C7_duplicate_timestamp_skipped_witness :
    find_stable_points [0, 1, 2] [0, 0, 5] (1 / 10) = [0, 2] ∧
    find_stable_points_aux (fun _ => (0 : ℚ)) (fun _ => (0 : ℚ)) 1 1 1 [0] none 0 =
      find_stable_points_aux (fun _ => (0 : ℚ)) (fun _ => (0 : ℚ)) 1 0 2 [0] none 0 :=
  ⟨C7_duplicate_timestamp_skipped.1 0 1 2 (1 / 10),
   C7_duplicate_timestamp_skipped.2 (fun _ => 0) (fun _ => 0) 1 0 1 [0] none 0 rfl⟩

theorem count_takeWhile_eq_zero (p : Char → Bool) (c : Char) (hc : p c = false)
    (l : List Char) : (l.takeWhile p).count c = 0 := by
  rw [List.count_eq_zero]
  intro hmem
  have hp := List.mem_takeWhile_imp hmem
  rw [hc] at hp
  exact Bool.noConfusion hp

theorem count_dropWhile_eq (p : Char → Bool) (c : Char) (hc : p c = false)
    (l : List Char) : (l.dropWhile p).count c = l.count c := by
  conv_rhs => rw [← List.takeWhile_append_dropWhile p l]
  rw [List.count_append, count_takeWhile_eq_zero p c hc, Nat.zero_add]

theorem count_stripWs (c : Char) (hc : c.isWhitespace = false) (l : List Char) :
    (stripWs l).count c = l.count c := by
  unfold stripWs
  rw [List.count_reverse, count_dropWhile_eq _ _ hc, List.count_reverse,
    count_dropWhile_eq _ _ hc]

theorem count_replaceEe (c : Char) (h1 : c ≠ 'e') (h2 : c ≠ 'E') (l : List Char) :
    (replaceEe l).count c = l.count c := by
  induction l with
  | nil => rfl
  | cons a l ih =>
    show ((if a = 'E' then 'e' else a) :: replaceEe l).count c = (a :: l).count c
    rw [List.count_cons, List.count_cons, ih]
    by_cases ha : a = 'E'
    · subst ha
      rw [if_pos rfl]
      have e1 : (('e' : Char) == c) = false := by
        rw [beq_eq_false_iff_ne]
        exact fun hcc => h1 hcc.symm
      have e2 : (('E' : Char) == c) = false := by
        rw [beq_eq_false_iff_ne]
        exact fun hcc => h2 hcc.symm
      rw [e1, e2]
    · rw [if_neg ha]

theorem count_replaceCommaDot (l : List Char) :
    (replaceCommaDot l).count '.' = l.count '.' + l.count ',' := by
  induction l with
  | nil => rfl
  | cons a l ih =>
    show ((if a = ',' then '.' else a) :: replaceCommaDot l).count '.' = _
    rw [List.count_cons, List.count_cons, List.count_cons, ih]
    by_cases ha : a = ','
    · subst ha
      rw [if_pos rfl]
      simp only [beq_self_eq_true, if_true]
      rw [show ((',' : Char) == '.') = false from by decide]
      simp
      omega
    · rw [if_neg ha]
      have ha' : ((a : Char) == ',') = false := beq_eq_false_iff_ne.mpr ha
      rw [ha']
      simp only [Bool.false_eq_true, if_false, Nat.add_zero]
      ring

theorem count_splitSign (c : Char) (h1 : c ≠ '-') (h2 : c ≠ '+') (cs : List Char) :
    ((splitSign cs).2).count c = cs.count c := by
  cases cs with
  | nil => rfl
  | cons a rest =>
    show ((if a = '-' then ((true : Bool), rest)
        else if a = '+' then ((false : Bool), rest) else (false, a :: rest)).2).count c = _
    by_cases ha : a = '-'
    · subst ha
      rw [if_pos rfl]
      show rest.count c = _
      rw [List.count_cons,
        show (('-' : Char) == c) = false from beq_eq_false_iff_ne.mpr fun hcc => h1 hcc.symm]
      simp
    · rw [if_neg ha]
      by_cases hb : a = '+'
      · subst hb
        rw [if_pos rfl]
        show rest.count c = _
        rw [List.count_cons,
          show (('+' : Char) == c) = false from beq_eq_false_iff_ne.mpr fun hcc => h2 hcc.symm]
        simp
      · rw [if_neg hb]

theorem count_eq_zero_of_all (p : Char → Bool) (c : Char) (hc : p c = false)
    (l : List Char) (h : l.all p = true) : l.count c = 0 := by
  rw [List.count_eq_zero]
  intro hm
  have hp := List.all_eq_true.mp h c hm
  rw [hc] at hp
  exact Bool.noConfusion hp

theorem parseMantissaAbs_counts (cs : List Char) (q : ℚ)
    (h : parseMantissaAbs cs = some q) : cs.count '.' ≤ 1 ∧ cs.count ',' = 0 := by
  have hsplit := List.takeWhile_append_dropWhile Char.isDigit cs
  have hipd : (cs.takeWhile Char.isDigit).count '.' = 0 :=
    count_takeWhile_eq_zero Char.isDigit '.' (by decide) cs
  have hipc : (cs.takeWhile Char.isDigit).count ',' = 0 :=
    count_takeWhile_eq_zero Char.isDigit ',' (by decide) cs
  have hcd : cs.count '.' =
      (cs.takeWhile Char.isDigit).count '.' + (cs.dropWhile Char.isDigit).count '.' := by
    conv_lhs => rw [← hsplit]
    rw [List.count_append]
  have hcc : cs.count ',' =
      (cs.takeWhile Char.isDigit).count ',' + (cs.dropWhile Char.isDigit).count ',' := by
    conv_lhs => rw [← hsplit]
    rw [List.count_append]
  simp only [parseMantissaAbs] at h
  by_cases h1 : (cs.dropWhile Char.isDigit).isEmpty
  · have hempty : cs.dropWhile Char.isDigit = [] := List.isEmpty_iff.mp h1
    rw [hempty] at hcd hcc
    simp at hcd hcc
    omega
  · rw [if_neg h1] at h
    by_cases h3 : (cs.dropWhile Char.isDigit).head? = some '.' ∧
        (cs.dropWhile Char.isDigit).tail.all Char.isDigit ∧
        ¬((cs.takeWhile Char.isDigit).isEmpty ∧ (cs.dropWhile Char.isDigit).tail.isEmpty)
    · obtain ⟨hhead, htail, _⟩ := h3
      obtain ⟨tl, htl⟩ : ∃ tl, cs.dropWhile Char.isDigit = '.' :: tl := by
        cases hrest : cs.dropWhile Char.isDigit with
        | nil => rw [hrest] at hhead; exact absurd hhead (by simp)
        | cons b tl =>
          rw [hrest] at hhead
          simp at hhead
          exact ⟨tl, by rw [hhead]⟩
      have htail' : tl.all Char.isDigit = true := by
        rw [htl] at htail
        simpa using htail
      have htld : tl.count '.' = 0 :=
        count_eq_zero_of_all Char.isDigit '.' (by decide) tl htail'
      have htlc : tl.count ',' = 0 :=
        count_eq_zero_of_all Char.isDigit ',' (by decide) tl htail'
      rw [htl] at hcd hcc
      rw [List.count_cons] at hcd hcc
      rw [show (('.' : Char) == '.') = true from by decide] at hcd
      rw [show (('.' : Char) == ',') = false from by decide] at hcc
      simp at hcd hcc
      omega
    · rw [if_neg h3] at h
      exact absurd h (by simp)

theorem parseSignedMantissa_counts (cs : List Char) (q : ℚ)
    (h : parseSignedMantissa cs = some q) : cs.count '.' ≤ 1 ∧ cs.count ',' = 0 := by
  simp only [parseSignedMantissa, Option.map_eq_some'] at h
  obtain ⟨q0, hq0, _⟩ := h
  have hres := parseMantissaAbs_counts _ q0 hq0
  have hd := count_splitSign '.' (by decide) (by decide) cs
  have hc := count_splitSign ',' (by decide) (by decide) cs
  omega

theorem parseSignedExp_counts (cs : List Char) (v : ℤ)
    (h : parseSignedExp cs = some v) : cs.count '.' = 0 ∧ cs.count ',' = 0 := by
  simp only [parseSignedExp] at h
  by_cases h1 : ((splitSign cs).2).isEmpty
  · rw [if_pos h1] at h
    exact absurd h (by simp)
  · rw [if_neg h1] at h
    by_cases h2 : ((splitSign cs).2).all Char.isDigit
    · have hd := count_eq_zero_of_all Char.isDigit '.' (by decide) _ h2
      have hc := count_eq_zero_of_all Char.isDigit ',' (by decide) _ h2
      have hd2 := count_splitSign '.' (by decide) (by decide) cs
      have hc2 := count_splitSign ',' (by decide) (by decide) cs
      omega
    · rw [if_neg h2] at h
      exact absurd h (by simp)

theorem dropWhile_head_false (p : Char → Bool) (l : List Char) :
    ∀ a ∈ (l.dropWhile p).head?, p a = false := by
  induction l with
  | nil => simp
  | cons b l ih =>
    rw [List.dropWhile_cons]
    by_cases hb : p b
    · simpa [hb] using ih
    · rw [if_neg hb]
      intro a ha
      simp at ha
      rw [← ha]
      simpa using hb

theorem pyFloatChars_counts (cs0 : List Char) (q : ℚ)
    (h : pyFloatChars cs0 = some q) : cs0.count '.' ≤ 1 ∧ cs0.count ',' = 0 := by
  have hbd : (replaceEe (stripWs cs0)).count '.' = cs0.count '.' := by
    rw [count_replaceEe '.' (by decide) (by decide), count_stripWs '.' (by decide)]
  have hbc : (replaceEe (stripWs cs0)).count ',' = cs0.count ',' := by
    rw [count_replaceEe ',' (by decide) (by decide), count_stripWs ',' (by decide)]
  have hsplit := List.takeWhile_append_dropWhile (· != 'e') (replaceEe (stripWs cs0))
  have hcd : cs0.count '.' =
      ((replaceEe (stripWs cs0)).takeWhile (· != 'e')).count '.' +
      ((replaceEe (stripWs cs0)).dropWhile (· != 'e')).count '.' := by
    rw [← hbd]
    conv_lhs => rw [← hsplit]
    rw [List.count_append]
  have hcc : cs0.count ',' =
      ((replaceEe (stripWs cs0)).takeWhile (· != 'e')).count ',' +
      ((replaceEe (stripWs cs0)).dropWhile (· != 'e')).count ',' := by
    rw [← hbc]
    conv_lhs => rw [← hsplit]
    rw [List.count_append]
  simp only [pyFloatChars] at h
  by_cases hre : ((replaceEe (stripWs cs0)).dropWhile (· != 'e')).isEmpty
  · rw [if_pos hre] at h
    have hm := parseSignedMantissa_counts _ q h
    have hempty : ((replaceEe (stripWs cs0)).dropWhile (· != 'e')) = [] :=
      List.isEmpty_iff.mp hre
    rw [hempty] at hcd hcc
    simp at hcd hcc
    omega
  · rw [if_neg hre] at h
    obtain ⟨hd, tl, htl⟩ : ∃ hd tl,
        ((replaceEe (stripWs cs0)).dropWhile (· != 'e')) = hd :: tl := by
      cases hrest : ((replaceEe (stripWs cs0)).dropWhile (· != 'e')) with
      | nil => rw [hrest] at hre; simp at hre
      | cons b tl => exact ⟨b, tl, rfl⟩
    have hhd : ((hd != 'e') : Bool) = false := by
      have hdw := dropWhile_head_false (· != 'e') (replaceEe (stripWs cs0))
      rw [htl] at hdw
      simpa using hdw hd rfl
    have hhde : hd = 'e' := by simpa using hhd
    subst hhde
    rw [htl] at h
    simp only [List.tail_cons] at h
    cases hm : parseSignedMantissa ((replaceEe (stripWs cs0)).takeWhile (· != 'e')) with
    | none => rw [hm] at h; exact absurd h (by simp)
    | some mv =>
      cases he : parseSignedExp tl with
      | none => rw [hm, he] at h; exact absurd h (by simp)
      | some ev =>
        have hmres := parseSignedMantissa_counts _ mv hm
        have heres := parseSignedExp_counts _ ev he
        rw [htl] at hcd hcc
        rw [List.count_cons] at hcd hcc
        rw [show (('e' : Char) == '.') = false from by decide] at hcd
        rw [show (('e' : Char) == ',') = false from by decide] at hcc
        simp at hcd hcc
        omega

theorem parse_1234_value :
    parseCell (Cell.str ['1', ',', '2', '3', '4']) = some (617 / 500) := by
  have h0 : to_numeric (Cell.str ['1', ',', '2', '3', '4']) = none := rfl
  have h3 : parseCell (Cell.str ['1', ',', '2', '3', '4']) =
      pyFloatChars ['1', '.', '2', '3', '4'] := by
    show (match to_numeric (Cell.str ['1', ',', '2', '3', '4']) with
      | some q => some q
      | none => convert_european_decimal (Cell.str ['1', ',', '2', '3', '4'])) = _
    rw [h0]
    rfl
  have h4 : pyFloatChars ['1', '.', '2', '3', '4'] =
      some ((digitsToNat ['1'] : ℚ) + (digitsToNat ['2', '3', '4'] : ℚ) /
        10 ^ (['2', '3', '4'].length)) := rfl
  have d1 : digitsToNat ['1'] = 1 := rfl
  have d2 : digitsToNat ['2', '3', '4'] = 234 := rfl
  rw [h3, h4, d1, d2]
  norm_num

theorem rowparse_c10 :
    rowParse true c10row = some ⟨617 / 500, 1, 1, 1⟩ := by
  unfold rowParse c10row
  dsimp only
  rw [parse_1234_value]
  rfl


/-- Claim C10: in the fallback numeric parse every comma is replaced by a
dot before parsing, so a single-comma numeral such as 1,234 is accepted as
the number 1.234, while any text cell containing two or more commas stays
unparseable and its row is dropped by preprocessing. -/
theorem C10_comma_replacement :
    (∀ cs : List Char, 2 ≤ cs.count ',' → parseCell (Cell.str cs) = none) ∧
    parseCell (Cell.str ['1', ',', '2', '3', '4']) = some (617 / 500) ∧
    (∀ (hasRatio : Bool) (a a0 rc : Cell) (cs : List Char), 2 ≤ cs.count ',' →
      rowParse hasRatio ⟨Cell.str cs, a, a0, rc⟩ = none) ∧
    preprocess_data true [c10row] = [⟨617 / 500, 1, 1, 1⟩] := by
  have key : ∀ cs : List Char, 2 ≤ cs.count ',' → parseCell (Cell.str cs) = none := by
    intro cs h2c
    have hstrict : to_numeric (Cell.str cs) = none := by
      show pyFloatChars cs = none
      cases hp : pyFloatChars cs with
      | none => rfl
      | some q =>
        have hcnt := (pyFloatChars_counts cs q hp).2
        omega
    have heuro : convert_european_decimal (Cell.str cs) = none := by
      show pyFloatChars (replaceCommaDot (stripWs cs)) = none
      cases hp : pyFloatChars (replaceCommaDot (stripWs cs)) with
      | none => rfl
      | some q =>
        exfalso
        have hd := (pyFloatChars_counts _ q hp).1
        have hrc := count_replaceCommaDot (stripWs cs)
        have hsc : (stripWs cs).count ',' = cs.count ',' :=
          count_stripWs ',' (by decide) cs
        omega
    show (match to_numeric (Cell.str cs) with
      | some q => some q
      | none => convert_european_decimal (Cell.str cs)) = none
    rw [hstrict, heuro]
  refine ⟨key, parse_1234_value, ?_, ?_⟩
  · intro hasRatio a a0 rc cs hc
    unfold rowParse
    rw [key cs hc]
  · unfold preprocess_data
    simp only [List.filterMap_cons, List.filterMap_nil, rowparse_c10,
      List.filter_cons, List.filter_nil]
    norm_num

/-- Witness for C10 at a two-comma cell, discharging the comma-count
hypothesis. -/
theorem C10_comma_replacement_witness :
    parseCell (Cell.str ['1', ',', '2', ',', '3']) = none :=
  C10_comma_replacement.1 ['1', ',', '2', ',', '3'] (by decide)

/-- Claim C2 counterexample: a table with two rows at the same time 0 and
positive concentrations survives preprocessing unchanged, so the surviving
times are neither strictly increasing nor positive. -/
theorem C2_time_not_validated :
    (preprocess_data true c2rows).map Row.t = [0, 0] ∧
    ¬ List.Chain' (· < ·) ((preprocess_data true c2rows).map Row.t) ∧
    ¬ (∀ r ∈ preprocess_data true c2rows, 0 < r.t) := by
  have he : (preprocess_data true c2rows).map Row.t = [0, 0] := rfl
  refine ⟨he, ?_, ?_⟩
  · rw [he]
    intro hc
    exact absurd (List.chain'_cons.mp hc).1 (lt_irrefl 0)
  · intro hall
    have hmem : (⟨0, 1, 1, 1⟩ : Row) ∈ preprocess_data true c2rows := by
      have h2 : preprocess_data true c2rows = [⟨0, 1, 1, 1⟩, ⟨0, 1, 1, 1⟩] := rfl
      rw [h2]
      exact List.mem_cons_self _ _
    exact absurd (hall _ hmem) (lt_irrefl 0)

/-- Claim C2 amended: preprocessing guarantees positivity of the
concentration, the reference concentration and the ratio on every
surviving row (and a parsed time value), but it neither filters the time
column for positivity nor enforces strictly increasing times. -/
theorem C2_survivors_positive (hasRatio : Bool) (rows : List PreRow) :
    ∀ r ∈ preprocess_data hasRatio rows, 0 < r.A ∧ 0 < r.A0 ∧ 0 < r.ratio := by
  intro r hr
  unfold preprocess_data at hr
  rw [List.mem_filter] at hr
  obtain ⟨hr, hA0⟩ := hr
  rw [List.mem_filter] at hr
  obtain ⟨hr, hA⟩ := hr
  rw [List.mem_filter] at hr
  obtain ⟨_, hrat⟩ := hr
  exact ⟨of_decide_eq_true hA, of_decide_eq_true hA0, of_decide_eq_true hrat⟩

/-- Witness for the amended C2 on a concrete surviving row. -/
theorem C2_survivors_positive_witness :
    0 < (Row.mk 1 2 4 1).A ∧ 0 < (Row.mk 1 2 4 1).A0 ∧ 0 < (Row.mk 1 2 4 1).ratio :=
  C2_survivors_positive true c2goodRows ⟨1, 2, 4, 1⟩ (by
    have h2 : preprocess_data true c2goodRows = [⟨1, 2, 4, 1⟩] := rfl
    rw [h2]
    exact List.mem_singleton.mpr rfl)

/-- Claim C3 counterexample: in the single guarded fitting block an error
raised by the first-order fit makes the whole block return only that
error; the second-order result, even when available, is not reported, and
two distinct failures are reported as the first one alone. -/
theorem C3_single_guard_blocks :
    run_model_fits (Except.error "Ошибка PFO" : Except String ℚ) (Except.ok (1 : ℚ)) =
      Except.error "Ошибка PFO" ∧
    run_model_fits (Except.error "Ошибка PFO" : Except String ℚ)
        (Except.error "Ошибка PSO" : Except String ℚ) = Except.error "Ошибка PFO" :=
  ⟨rfl, rfl⟩

/-- Claim C3 amended: the two fits run sequentially inside one guarded
block; the second runs only when the first succeeds, a single combined
error is reported, and both results appear only when both fits succeed. -/
theorem C3_sequential_guarded_block :
    (∀ (e : String) (pso : Except String ℚ),
      run_model_fits (Except.error e : Except String ℚ) pso = Except.error e) ∧
    (∀ (a : ℚ) (e : String),
      run_model_fits (Except.ok a) (Except.error e : Except String ℚ) = Except.error e) ∧
    (∀ a b : ℚ, run_model_fits (Except.ok a) (Except.ok b) = Except.ok (a, b)) :=
  ⟨fun _ _ => rfl, fun _ _ => rfl, fun _ _ => rfl⟩

/-- Claim C4: a table without the reference-concentration column is
rejected by validate_data_structure before the auto-fill branch can run,
even though that branch would have found a first positive concentration;
any table lacking the column ends in an error. -/
theorem C4_upload_rejects_missing_A0 :
    upload_flow c4table = Except.error "Отсутствуют обязательные столбцы: А0" ∧
    firstValidA c4table.rows = some 5 ∧
    (∀ tbl : UploadTable, tbl.hasA0 = false →
      ∃ msg, upload_flow tbl = Except.error msg) := by
  refine ⟨rfl, rfl, ?_⟩
  intro tbl h0
  unfold upload_flow validate_data_structure
  by_cases he : tbl.rows.isEmpty
  · rw [if_pos he]
    exact ⟨"Файл пуст", rfl⟩
  · rw [if_neg he]
    have hmiss : requiredMissing tbl ≠ [] := by
      unfold requiredMissing
      rw [h0]
      intro hcontra
      simp at hcontra
    rw [if_pos hmiss]
    exact ⟨_, rfl⟩

/-- Witness for C4 discharging the missing-column hypothesis at the
concrete table. -/
theorem C4_upload_rejects_missing_A0_witness :
    ∃ msg, upload_flow c4table = Except.error msg :=
  C4_upload_rejects_missing_A0.2.2 c4table rfl

theorem zipWith_mul_sum (f : ℝ → ℝ → ℝ) (c : ℝ) (l1 l2 : List ℝ) :
    (List.zipWith (fun o p => f o p * c) l1 l2).sum = (List.zipWith f l1 l2).sum * c := by
  induction l1 generalizing l2 with
  | nil => simp
  | cons a l ih =>
    cases l2 with
    | nil => simp
    | cons b m =>
      simp only [List.zipWith_cons_cons, List.sum_cons, ih]
      ring

/-- Claim C6: both fit functions evaluate MAPE and R squared against the
original observed variable (the ratio with exp-transformed predictions for
the first-order model, the concentration with reciprocal-transformed
predictions for the second-order model), matching the spec formulas, and
never against the transformed fitting variables. -/
theorem C6_metrics_on_original (t lnr ratio invA A : List ℝ) :
    (fit_pfo_model t lnr ratio).2.2.1 = specMAPE ratio (pfo_pred t (pfo_k t lnr)) ∧
    (fit_pfo_model t lnr ratio).2.2.2 = specR2 ratio (pfo_pred t (pfo_k t lnr)) ∧
    (fit_pso_model t invA A).2.2.1 =
      specMAPE A (pso_pred t (pso_k t invA A.headI) A.headI) ∧
    (fit_pso_model t invA A).2.2.2 =
      specR2 A (pso_pred t (pso_k t invA A.headI) A.headI) := by
  refine ⟨?_, rfl, ?_, rfl⟩
  · show sklearn_mape ratio (pfo_pred t (pfo_k t lnr)) * 100 =
      specMAPE ratio (pfo_pred t (pfo_k t lnr))
    unfold sklearn_mape specMAPE
    rw [zipWith_mul_sum (fun o p => |o - p| / |o|) 100]
    ring
  · show sklearn_mape A (pso_pred t (pso_k t invA A.headI) A.headI) * 100 =
      specMAPE A (pso_pred t (pso_k t invA A.headI) A.headI)
    unfold sklearn_mape specMAPE
    rw [zipWith_mul_sum (fun o p => |o - p| / |o|) 100]
    ring

theorem dotR_self_nonneg (t : List ℝ) : 0 ≤ dotR t t := by
  unfold dotR
  induction t with
  | nil => simp
  | cons a l ih =>
    simp only [List.zipWith_cons_cons, List.sum_cons]
    nlinarith [mul_self_nonneg a]

theorem sseLin_expand (t y : List ℝ) (c k : ℝ) :
    sseLin t y c k =
      (List.zipWith (fun _ti yi => (yi - c) ^ 2) t y).sum -
      2 * k * (List.zipWith (fun ti yi => ti * (yi - c)) t y).sum +
      k ^ 2 * (List.zipWith (fun ti _yi => ti * ti) t y).sum := by
  unfold sseLin
  induction t generalizing y with
  | nil => simp
  | cons a l ih =>
    cases y with
    | nil => simp
    | cons b m =>
      simp only [List.zipWith_cons_cons, List.sum_cons, ih]
      ring

theorem zipQ_eq_dotR (t y : List ℝ) (h : t.length = y.length) :
    (List.zipWith (fun ti _yi => ti * ti) t y).sum = dotR t t := by
  unfold dotR
  induction t generalizing y with
  | nil => simp
  | cons a l ih =>
    cases y with
    | nil => simp at h
    | cons b m =>
      simp only [List.zipWith_cons_cons, List.sum_cons]
      simp only [List.length_cons, Nat.succ_inj] at h
      rw [ih m h]

theorem lsq_k_minimizes (t y : List ℝ) (hlen : t.length = y.length)
    (hQ : dotR t t ≠ 0) (c k : ℝ) :
    sseLin t y c (lsq_k t y c) ≤ sseLin t y c k := by
  have hQ0 : 0 < dotR t t := lt_of_le_of_ne (dotR_self_nonneg t) (Ne.symm hQ)
  rw [sseLin_expand, sseLin_expand, zipQ_eq_dotR t y hlen]
  unfold lsq_k
  set Q := dotR t t with hQdef
  set B := (List.zipWith (fun ti yi => ti * (yi - c)) t y).sum with hBdef
  have hexp : (k * Q - B) ^ 2 / Q = k ^ 2 * Q - 2 * k * B + B ^ 2 / Q := by
    field_simp
    ring
  have hnn : 0 ≤ (k * Q - B) ^ 2 / Q := div_nonneg (sq_nonneg _) hQ0.le
  have h2 : (B / Q) ^ 2 * Q = B ^ 2 / Q := by
    field_simp
    ring
  have h3 : 2 * (B / Q) * B = 2 * (B ^ 2 / Q) := by
    field_simp
    ring
  linarith

theorem ssePFO_as_sseLin (t y : List ℝ) (k : ℝ) :
    ssePFO t y k = sseLin t y 0 (-k) := by
  unfold ssePFO sseLin
  simp only [zero_add]

theorem pfo_k_as_lsq (t y : List ℝ) : pfo_k t y = -(lsq_k t y 0) := by
  unfold pfo_k lsq_k dotR
  simp only [sub_zero]
  rw [neg_div]

/-- Claim C5 counterexample: a region with a single usable point at
nonzero time does not fail: the least-squares problem the solver is given
has the exact solution one half with zero residual, so the fit succeeds
(and no DegenerateRegionError exists anywhere in the code). -/
theorem C5_one_point_fit_exact :
    pfo_k [2] [-1] = 1 / 2 ∧ ssePFO [2] [-1] (pfo_k [2] [-1]) = 0 := by
  have hk : pfo_k [2] [-1] = 1 / 2 := by
    unfold pfo_k dotR
    norm_num
  refine ⟨hk, ?_⟩
  rw [hk]
  unfold ssePFO
  norm_num

/-- Claim C5 amended: the code defines no DegenerateRegionError or
ConvergenceError; the fits hand the region to a generic least-squares
solver, and for these models, linear in their single parameter, the
returned constants minimize the squared error whenever the time column is
not identically zero (sum of squared times nonzero) - including regions
with fewer than 2 points; only that singular design is degenerate. -/
theorem C5_fit_wellposed (t y : List ℝ)
    (hlen : t.length = y.length) (hQ : dotR t t ≠ 0) :
    (∀ k, ssePFO t y (pfo_k t y) ≤ ssePFO t y k) ∧
    (∀ A0 k, sseLin t y (1 / A0) (pso_k t y A0) ≤ sseLin t y (1 / A0) k) := by
  constructor
  · intro k
    rw [ssePFO_as_sseLin, ssePFO_as_sseLin, pfo_k_as_lsq, neg_neg]
    exact lsq_k_minimizes t y hlen hQ 0 (-k)
  · intro A0 k
    exact lsq_k_minimizes t y hlen hQ (1 / A0) k

/-- Witness for the amended C5 at a concrete one-point region. -/
theorem C5_fit_wellposed_witness :
    ssePFO [1] [-1] (pfo_k [1] [-1]) ≤ ssePFO [1] [-1] 0 :=
  (C5_fit_wellposed [1] [-1] rfl (by simp [dotR])).1 0

theorem sklearn_mape_self (l : List ℝ) : sklearn_mape l l = 0 := by
  unfold sklearn_mape
  have hz : (List.zipWith (fun o p => |o - p| / |o|) l l).sum = 0 := by
    induction l with
    | nil => simp
    | cons a m ih =>
      simp only [List.zipWith_cons_cons, List.sum_cons, ih, sub_self, abs_zero, zero_div,
        add_zero]
  rw [hz]
  simp

theorem c9ln_concrete : c9ln = List.map (fun q : ℚ => (q : ℝ)) c9yQ := by
  unfold c9ln c9ratio c9t c9yQ
  simp only [List.map_cons, List.map_nil, Real.log_exp]
  norm_num

theorem c9_selector : find_stable_points c9yQ c9tQ (1 / 10) = [0, 1, 2, 3] := by
  have h := fsp_affine_all c9yQ c9tQ (1 / 10) (-(1 / 20)) rfl (by norm_num [c9yQ])
    (by norm_num) (by norm_num) (by norm_num [c9tQ, List.chain'_cons])
    (by
      intro i hi
      simp only [c9yQ, List.length_cons, List.length_nil] at hi
      interval_cases i <;> norm_num [c9yQ, c9tQ, List.getD])
  rw [h]
  rfl

theorem c9_k_exact : pfo_k c9t c9ln = 1 / 20 := by
  rw [c9ln_concrete]
  unfold pfo_k dotR c9t c9yQ
  norm_num

theorem c9_mape_zero : (fit_pfo_model c9t c9ln c9ratio).2.2.1 = 0 := by
  show sklearn_mape c9ratio (pfo_pred c9t (pfo_k c9t c9ln)) * 100 = 0
  have hpred : pfo_pred c9t (pfo_k c9t c9ln) = c9ratio := by
    rw [c9_k_exact]
    unfold pfo_pred pfo_pred_ln c9ratio
    rw [List.map_map]
    rfl
  rw [hpred, sklearn_mape_self]
  ring

/-- Claim C9: when the dependent series is exactly affine in time (every
slope equals the reference slope, no sign reversal) the scan accepts every
index; concretely, for the noiseless first-order scenario with times
0, 2, 5, 10 and rate 0.05 the scan returns all four indices, the fitted
constant is exactly one twentieth (absolute error below one thousandth),
and the MAPE of the fit is exactly zero. -/
theorem C9_noiseless_first_order :
    (∀ (y t : List ℚ) (s th : ℚ), t.length = y.length → 1 ≤ y.length →
      0 < th → th ≤ 1 → List.Chain' (· < ·) t →
      (∀ i : ℕ, i < y.length →
        y.getD i 0 = y.getD 0 0 + s * (t.getD i 0 - t.getD 0 0)) →
      find_stable_points y t th = List.range y.length) ∧
    find_stable_points c9yQ c9tQ (1 / 10) = [0, 1, 2, 3] ∧
    c9ln = List.map (fun q : ℚ => (q : ℝ)) c9yQ ∧
    pfo_k c9t c9ln = 1 / 20 ∧ |pfo_k c9t c9ln - 1 / 20| < 1 / 1000 ∧
    (fit_pfo_model c9t c9ln c9ratio).2.2.1 = 0 := by
  refine ⟨?_, c9_selector, c9ln_concrete, c9_k_exact, ?_, c9_mape_zero⟩
  · intro y t s th hlen hn hth0 hth1 hmono haff
    exact fsp_affine_all y t th s hlen hn hth0 hth1 hmono haff
  · rw [c9_k_exact]
    norm_num

/-- Witness for C9: the affine-selection property applied at the concrete
scenario data, discharging every hypothesis. -/
theorem C9_noiseless_first_order_witness :
    find_stable_points c9yQ c9tQ (1 / 10) = List.range c9yQ.length :=
  C9_noiseless_first_order.1 c9yQ c9tQ (-(1 / 20)) (1 / 10) rfl
    (by norm_num [c9yQ]) (by norm_num) (by norm_num)
    (by norm_num [c9tQ, List.chain'_cons])
    (by
      intro i hi
      simp only [c9yQ, List.length_cons, List.length_nil] at hi
      interval_cases i <;> norm_num [c9yQ, c9tQ, List.getD])
end Kenan
